import Mathlib

/-!
# A verification model of the `memoryfs` in-memory filesystem

This file gives a shallow embedding of the Go package `memoryfs` (an in-memory
hierarchical file store implementing the `io/fs` interfaces) and proves
properties of its public operations.

The embedding follows the source closely:

* A Go `map[string]T` is modelled as an association list `List (String × T)`
  with first-match lookup (`mapFind`, embedding `m[k]`) and replace-or-append
  update (`mapInsert`, embedding `m[k] = v`).  Go map iteration order is
  unspecified; the association-list order stands in for one concrete iteration
  order, and the only place iteration order could be observed (`ReadDir`)
  sorts its result, as the source does.
* `strings.Split(s, "/")` is embedded as `splitPath` (structural recursion over
  the character list; like the Go function it never returns an empty list and
  returns `[""]` on the empty string), and `strings.Join` as `joinSegs`.
* Byte slices are `List Nat`, `fs.FileMode` and `time.Time` are `Nat`.
* Errors are a closed inductive `FsError`; `osIsNotExist` embeds
  `os.IsNotExist` (matching only the bare sentinel, which is the only error the
  internal lookups produce) and `errorsIsNotExist` embeds
  `errors.Is(err, fs.ErrNotExist)` (which also sees through the `%w`-wrapped
  "no such file or directory" error).
* The recursive methods of `dir` consume one path segment per call and recurse
  on `strings.Join(parts[1:], separator)`.  Re-splitting that join gives back
  `parts[1:]` whenever it is nonempty (segments contain no separator), so the
  part-level functions (`getDirP`, `getFileP`, `readDirP`, `mkdirAllP`,
  `writeFileP`) recurse directly on the tail, with the empty-join corner case
  (`parts[1:] = [""]`, i.e. a trailing separator) reproduced explicitly where
  the Go code tests `name == ""`.  The round-trip facts backing this are
  proved below (`splitPath_joinSegs`, `getDirS_seg`).
-/

namespace Memoryfs

/-- The error values that can flow out of the package: the `fs.ErrNotExist`
sentinel, the `fs.ErrExist` sentinel, the wrapped
`fmt.Errorf("no such file or directory: %s: %w", name, fs.ErrNotExist)`,
and the generic `fmt.Errorf("cannot read directory")`. -/
inductive FsError where
  | notExist
  | exist
  | noSuchFileOrDirectory (name : String)
  | cannotReadDirectory
deriving Repr, DecidableEq

/-- Embeds `os.IsNotExist err`: true exactly on the bare `fs.ErrNotExist`
sentinel (the historical helper does not unwrap `%w`-wrapped errors). -/
def osIsNotExist : FsError → Bool
  | .notExist => true
  | _ => false

/-- Embeds `errors.Is(err, fs.ErrNotExist)`: also recognises the sentinel
inside the wrapped "no such file or directory" error. -/
def errorsIsNotExist : FsError → Bool
  | .notExist => true
  | .noSuchFileOrDirectory _ => true
  | _ => false

/-- The `fileinfo` metadata record: name, synthetic size, last-modified
timestamp, is-directory flag, permission bits. -/
structure fileinfo where
  name : String
  size : Nat
  modified : Nat
  isDir : Bool
  mode : Nat
deriving Repr, DecidableEq

/-- The `file` record: metadata plus an immutable content buffer.  (The
per-open read cursor over the buffer lives in `Handle` below.) -/
structure file where
  info : fileinfo
  content : List Nat
deriving Repr, DecidableEq

/-- The recursive directory node:
`type dir struct { info fileinfo; dirs map[string]dir; files map[string]file }`. -/
inductive dir where
  | mk : fileinfo → List (String × dir) → List (String × file) → dir
deriving Repr

/-- Projection for the `info` field of `dir`. -/
def dir.info : dir → fileinfo
  | .mk i _ _ => i

/-- Projection for the `dirs` field of `dir`. -/
def dir.dirs : dir → List (String × dir)
  | .mk _ ds _ => ds

/-- Projection for the `files` field of `dir`. -/
def dir.files : dir → List (String × file)
  | .mk _ _ fs => fs

theorem dir.eta : ∀ d : dir, dir.mk d.info d.dirs d.files = d
  | .mk _ _ _ => rfl

/-- Embeds the Go map lookup `v, ok := m[k]`. -/
def mapFind : List (String × α) → String → Option α
  | [], _ => none
  | (k', v) :: t, k => if k' = k then some v else mapFind t k

/-- Embeds the Go map assignment `m[k] = v`: replace the binding in place if
the key is present, otherwise add it. -/
def mapInsert : List (String × α) → String → α → List (String × α)
  | [], k, v => [(k, v)]
  | (k', v') :: t, k, v => if k' = k then (k, v) :: t else (k', v') :: mapInsert t k v

/-- Embeds `strings.Split(s, "/")` on the character list of `s`.  Like the Go
function, the result is never empty and splitting the empty string gives
`[""]`. -/
def splitChars : List Char → List String
  | [] => [""]
  | c :: rest =>
    if c = '/' then "" :: splitChars rest
    else match splitChars rest with
      | s :: ss => (⟨c :: s.data⟩ : String) :: ss
      | [] => [⟨[c]⟩]

/-- `strings.Split(s, separator)` with `separator = "/"`. -/
def splitPath (s : String) : List String := splitChars s.data

/-- Embeds `strings.Join(parts, separator)` with `separator = "/"`. -/
def joinSegs : List String → String
  | [] => ""
  | [s] => s
  | s :: t => s ++ "/" ++ joinSegs t

/-- Strict lexicographic order on code sequences, embedding the Go byte-wise
string comparison `a < b` (on UTF-8 text, byte order and codepoint order
agree). -/
def lexLtN : List Nat → List Nat → Bool
  | [], [] => false
  | [], _ :: _ => true
  | _ :: _, [] => false
  | a :: as, b :: bs => if a < b then true else if b < a then false else lexLtN as bs

/-- The codepoint sequence of a string. -/
def codes (s : String) : List Nat := s.data.map Char.toNat

/-- Embeds the Go string comparison `a < b` used by the `ReadDir` sort. -/
def nameLt (a b : String) : Bool := lexLtN (codes a) (codes b)

/-- `a` sorts no later than `b`: the order in which an ascending sort by
`nameLt` leaves adjacent elements. -/
def nameLe (a b : String) : Bool := !nameLt b a

/-- One insertion step of sorting metadata entries by name. -/
def insertSorted (x : fileinfo) : List fileinfo → List fileinfo
  | [] => [x]
  | y :: t => if nameLe x.name y.name then x :: y :: t else y :: insertSorted x t

/-- Embeds `sort.Slice(entries, func(i, j) { return entries[i].Name() < entries[j].Name() })`:
sort the entries ascending by name.  (The Go sort is an unspecified comparison
sort; insertion sort here produces a list sorted by the same comparison.) -/
def sortByName : List fileinfo → List fileinfo
  | [] => []
  | x :: t => insertSorted x (sortByName t)

/-- Embeds `dir.getDir` at the level of path parts.  The Go method returns the
node itself on the empty name (here: the empty part list), otherwise looks the
first split segment up among the child directories and recurses on
`strings.Join(parts[1:], separator)`.  When that join is empty (no further
parts, or a lone trailing separator) the recursive call's `name == ""` test
returns the child itself — inlined here as the `joinSegs rest = ""` branch;
otherwise re-splitting the join gives back exactly `rest`
(`splitPath_joinSegs` below), so the recursion continues on `rest`. -/
def getDirP : dir → List String → Except FsError dir
  | d, [] => .ok d
  | d, p :: rest =>
    match mapFind d.dirs p with
    | some child =>
      if joinSegs rest = "" then .ok child else getDirP child rest
    | none => .error .notExist

/-- Embeds `dir.getDir` on a path string: `if name == "" { return d, nil }`,
otherwise split and descend. -/
def dir.getDirS (d : dir) (name : String) : Except FsError dir :=
  if name = "" then .ok d else getDirP d (splitPath name)

/-- Embeds the call `d.getDir(parts[0])` made by `dir.getFile`: `parts[0]` is a
single separator-free segment, for which `getDir` either returns the node
itself (empty segment) or resolves the segment among the child directories.
`getDirS_seg` below proves this agrees with `dir.getDirS`. -/
def getDirSeg (d : dir) (p : String) : Except FsError dir :=
  if p = "" then .ok d
  else match mapFind d.dirs p with
    | some child => .ok child
    | none => .error .notExist

/-- Embeds `dir.getFile` at the level of path parts: a single remaining part is
looked up among the file entries (returning a fresh copy of the record, over
which the caller gets a new reader); otherwise resolve the first part as a
child directory via `getDir` and recurse.  (`strings.Split` never returns an
empty slice, so the `[]` case is unreachable from a split path.) -/
def getFileP : dir → List String → Except FsError file
  | _, [] => .error .notExist
  | d, [p] =>
    match mapFind d.files p with
    | some f => .ok f
    | none => .error .notExist
  | d, p :: rest =>
    match getDirSeg d p with
    | .ok sub => getFileP sub rest
    | .error e => .error e

/-- Embeds `dir.getFile` on a path string (the Go method has no empty-name
test: the empty string splits to `[""]` and is looked up as the file name
`""`). -/
def dir.getFileS (d : dir) (name : String) : Except FsError file :=
  getFileP d (splitPath name)

/-- The immediate-children listing built by `dir.ReadDir` on the empty name:
every file entry's metadata, then every child directory's metadata, sorted by
name. -/
def childEntries (d : dir) : List fileinfo :=
  sortByName (d.files.map (fun p => p.2.info) ++ d.dirs.map (fun p => p.2.info))

/-- Embeds `dir.ReadDir` at the level of path parts: the empty name lists the
node's own immediate children; otherwise the first part must resolve as a
child directory, and the method recurses on the joined remainder (the
empty-join case, which the recursive call's `name == ""` test answers with the
child's own listing, is inlined as in `getDirP`). -/
def readDirP : dir → List String → Except FsError (List fileinfo)
  | d, [] => .ok (childEntries d)
  | d, p :: rest =>
    match mapFind d.dirs p with
    | none => .error .notExist
    | some child =>
      if joinSegs rest = "" then .ok (childEntries child) else readDirP child rest

/-- Embeds `dir.ReadDir` on a path string. -/
def dir.ReadDirS (d : dir) (name : String) : Except FsError (List fileinfo) :=
  if name = "" then readDirP d [] else readDirP d (splitPath name)

/-- The value `dir.Open` returns: either the directory node itself (which is an
`fs.File` whose `Read` always fails) or a fresh copy of a file record with a
new reader over its content. -/
inductive Handle where
  | dirHandle (d : dir)
  | fileHandle (f : file)
deriving Repr

/-- Embeds `dir.Open`: the empty name and `"."` resolve to the node itself;
otherwise try file resolution, pass through any error that is not the
not-exist sentinel, then try directory resolution likewise, and finally fail
with the wrapped "no such file or directory" error. -/
def dir.Open (d : dir) (name : String) : Except FsError Handle :=
  if name = "" ∨ name = "." then .ok (.dirHandle d)
  else
    match d.getFileS name with
    | .ok f => .ok (.fileHandle f)
    | .error e =>
      if osIsNotExist e = false then .error e
      else
        match d.getDirS name with
        | .ok sub => .ok (.dirHandle sub)
        | .error e2 =>
          if osIsNotExist e2 = false then .error e2
          else .error (.noSuchFileOrDirectory name)

/-- Embeds `dir.Stat`: returns the node's own metadata, never an error. -/
def dir.Stat (d : dir) : fileinfo := d.info

/-- Embeds `dir.Read`: a directory handle rejects content reads with the
generic "cannot read directory" error (and reads zero bytes). -/
def dir.Read (_d : dir) (_buf : List Nat) : Nat × Option FsError :=
  (0, some .cannotReadDirectory)

/-- Embeds `dir.Close`: a no-op returning nil. -/
def dir.Close (_d : dir) : Option FsError := none

/-- Modelled from the spec: the file record's read cursor (the source file
defining `file`'s methods is absent from src/).  "each open produces an
independent cursor" over the content buffer and "Writing a file then opening
it returns exactly the written bytes", so a full read of a freshly opened
file handle yields the whole content buffer. -/
def file.readAll (f : file) : List Nat := f.content

/-- Modelled from the spec: `file.openR().Stat()` (the source file defining
`file`'s methods is absent from src/) — the cursor carries "a private copy of
the metadata", so `Stat` on it returns the record's metadata. -/
def file.cursorStat (f : file) : fileinfo := f.info

/-- A full `io.ReadAll`-style drain of an open handle: a directory handle's
`Read` always errors (src `dir.Read`), a file handle yields its content
(spec-modelled cursor, `file.readAll`). -/
def Handle.readAll : Handle → Except FsError (List Nat)
  | .dirHandle d =>
    match (d.Read []).2 with
    | some e => .error e
    | none => .ok []
  | .fileHandle f => .ok f.readAll

/-- Embeds `dir.MkdirAll`, taking the already-split parts plus the current
time `now` standing in for `time.Now()`.  Mirrors the Go method line by line:
fail with `fs.ErrExist` if the first part names a file entry; stamp the node's
modified time; create the child directory (synthetic size `0x100`, current
time, given permission) if missing; stop if this was the last part, else
recurse into the child and re-insert the mutated child value into the map.
The pair returned is (error, node after the call) — the Go method mutates its
receiver in place.  (`[]` is unreachable from a split path: `strings.Split`
never returns an empty slice.) -/
def mkdirAllP : dir → List String → Nat → Nat → Option FsError × dir
  | d, [], _, _ => (none, d)
  | d, p :: rest, perm, now =>
    match mapFind d.files p with
    | some _ => (some .exist, d)
    | none =>
      let d1 : dir := .mk { d.info with modified := now } d.dirs d.files
      let d2 : dir :=
        match mapFind d1.dirs p with
        | some _ => d1
        | none =>
          .mk d1.info (mapInsert d1.dirs p (.mk ⟨p, 0x100, now, true, perm⟩ [] [])) d1.files
      if rest = [] then (none, d2)
      else
        match mapFind d2.dirs p with
        | some child =>
          let r := mkdirAllP child rest perm now
          (r.1, .mk d2.info (mapInsert d2.dirs p r.2) d2.files)
        | none => (none, d2)

/-- Embeds `dir.MkdirAll` on a path string. -/
def dir.MkdirAllS (d : dir) (path : String) (perm now : Nat) : Option FsError × dir :=
  mkdirAllP d (splitPath path) perm now

/-- Embeds `dir.WriteFile`, taking the already-split parts plus the current
time.  A single remaining part stores a fresh copy of the content under that
name (size = byte length, current time, not a directory, given permission);
otherwise the first part must already name a child directory — else
`fs.ErrNotExist` — and the method recurses into it and re-inserts the mutated
child value.  The pair returned is (error, node after the call).  (`[]` is
unreachable from a split path; the Go code would panic there.) -/
def writeFileP : dir → List String → List Nat → Nat → Nat → Option FsError × dir
  | d, [], _, _, _ => (some .notExist, d)
  | d, [p], data, perm, now =>
    (none, .mk d.info d.dirs (mapInsert d.files p ⟨⟨p, data.length, now, false, perm⟩, data⟩))
  | d, p :: rest, data, perm, now =>
    match mapFind d.dirs p with
    | none => (some .notExist, d)
    | some child =>
      let r := writeFileP child rest data perm now
      (r.1, .mk d.info (mapInsert d.dirs p r.2) d.files)

/-- Embeds `dir.WriteFile` on a path string. -/
def dir.WriteFileS (d : dir) (path : String) (data : List Nat) (perm now : Nat) :
    Option FsError × dir :=
  writeFileP d (splitPath path) data perm now

/-- Modelled from the spec: path cleansing by the root handle (the source file
defining `cleanse` is absent from src/).  The root handle "cleans the path
(removing leading/trailing separators, normalizing `.`)", and "Root (`.` or
empty) always resolves to the root directory". -/
def cleanse (path : String) : String :=
  let t : List Char := ((path.data.dropWhile (· = '/')).reverse.dropWhile (· = '/')).reverse
  if (⟨t⟩ : String) = "." then "" else ⟨t⟩

/-- The root handle `FS`: owns the root directory node. -/
structure FS where
  root : dir

/-- Embeds `New()`: a fresh filesystem whose root is named `"."`, with
synthetic size `0x100`, mode `0o700`, and the construction time. -/
def FS.New (now : Nat) : FS :=
  ⟨.mk ⟨".", 0x100, now, true, 0o700⟩ [] []⟩

/-- Embeds `FS.Stat` after path cleansing: try file resolution (returning the
cursor's metadata), pass through any non-not-exist error, then directory
resolution, and finally the wrapped not-exist error. -/
def statNamed (d : dir) (name : String) : Except FsError fileinfo :=
  match d.getFileS name with
  | .ok f => .ok f.cursorStat
  | .error e =>
    if osIsNotExist e = false then .error e
    else
      match d.getDirS name with
      | .ok sub => .ok sub.Stat
      | .error e2 =>
        if osIsNotExist e2 = false then .error e2
        else .error (.noSuchFileOrDirectory name)

/-- Embeds `FS.Stat`. -/
def FS.Stat (m : FS) (name : String) : Except FsError fileinfo :=
  statNamed m.root (cleanse name)

/-- Embeds `FS.Open`. -/
def FS.Open (m : FS) (name : String) : Except FsError Handle :=
  m.root.Open (cleanse name)

/-- Embeds `FS.ReadDir`. -/
def FS.ReadDir (m : FS) (name : String) : Except FsError (List fileinfo) :=
  m.root.ReadDirS (cleanse name)

/-- Embeds `FS.WriteFile`. -/
def FS.WriteFile (m : FS) (path : String) (data : List Nat) (perm now : Nat) :
    Option FsError × FS :=
  let r := m.root.WriteFileS (cleanse path) data perm now
  (r.1, ⟨r.2⟩)

/-- Embeds `FS.MkdirAll`. -/
def FS.MkdirAll (m : FS) (path : String) (perm now : Nat) : Option FsError × FS :=
  let r := m.root.MkdirAllS (cleanse path) perm now
  (r.1, ⟨r.2⟩)

/-! ## Observers used to state the claims -/

/-- Keys of the child-directory map and of the file-entry map of one node are
disjoint: no name resolves in both. -/
def disjointKeys (ds : List (String × dir)) (fs : List (String × file)) : Bool :=
  ds.all (fun p => (mapFind fs p.1).isNone)

mutual
/-- The spec's data-model invariant, at every node of the tree: "a name cannot
simultaneously exist as both a child directory and a file entry within the
same node". -/
def dir.inv : dir → Bool
  | .mk _ ds fs => disjointKeys ds fs && invAll ds

/-- `dir.inv` for every child directory of a map. -/
def invAll : List (String × dir) → Bool
  | [] => true
  | (_, c) :: t => c.inv && invAll t
end

/-- Erase the modified timestamp of a file record (used to compare trees up to
timestamps). -/
def file.strip (f : file) : file := ⟨{ f.info with modified := 0 }, f.content⟩

mutual
/-- Erase every modified timestamp in the tree: two trees with equal `strip`
agree on names, structure, contents, sizes and permissions, and differ at most
in modified timestamps. -/
def dir.strip : dir → dir
  | .mk i ds fs => .mk { i with modified := 0 } (stripAll ds) (fs.map (fun p => (p.1, p.2.strip)))

/-- `dir.strip` over a child-directory map. -/
def stripAll : List (String × dir) → List (String × dir)
  | [] => []
  | (k, c) :: t => (k, c.strip) :: stripAll t
end

/-- Plain descent through the child-directory maps along a list of segments
(the route `MkdirAll` and `WriteFile` take, with no empty-name special case). -/
def resolveDirs : dir → List String → Option dir
  | d, [] => some d
  | d, p :: rest =>
    match mapFind d.dirs p with
    | some c => resolveDirs c rest
    | none => none

/-- Whether the node a `WriteFile` on these parts would insert into already has
a child directory under the final segment (the collision `WriteFile` does not
check for). -/
def writeTargetHasDir : dir → List String → Bool
  | _, [] => false
  | d, [p] => (mapFind d.dirs p).isSome
  | d, p :: rest =>
    match mapFind d.dirs p with
    | some c => writeTargetHasDir c rest
    | none => false

/-- The final segment of a part list (the name a `WriteFile` stores under). -/
def lastSeg : List String → String
  | [] => ""
  | [p] => p
  | _ :: rest => lastSeg rest

/-! ## Association-list (Go map) lemmas -/

theorem mapFind_insert_self (m : List (String × α)) (k : String) (v : α) :
    mapFind (mapInsert m k v) k = some v := by
  induction m with
  | nil => simp [mapInsert, mapFind]
  | cons h t ih =>
    obtain ⟨k', v'⟩ := h
    by_cases hk : k' = k
    · subst hk
      simp [mapInsert, mapFind]
    · simp [mapInsert, mapFind, hk, ih]

theorem mapFind_insert_ne (m : List (String × α)) (k k' : String) (v : α) (h : k' ≠ k) :
    mapFind (mapInsert m k v) k' = mapFind m k' := by
  induction m with
  | nil => simp only [mapInsert, mapFind, if_neg (Ne.symm h)]
  | cons hd t ih =>
    obtain ⟨k'', v''⟩ := hd
    by_cases hk : k'' = k
    · subst hk
      simp only [mapInsert, if_pos rfl, mapFind, if_neg (Ne.symm h)]
    · simp only [mapInsert, if_neg hk, mapFind]
      by_cases hk2 : k'' = k'
      · simp [hk2]
      · simp [hk2, ih]

theorem mapInsert_find_eq (m : List (String × α)) (k : String) (v : α)
    (h : mapFind m k = some v) : mapInsert m k v = m := by
  induction m with
  | nil => simp [mapFind] at h
  | cons hd t ih =>
    obtain ⟨k', v'⟩ := hd
    by_cases hk : k' = k
    · subst hk
      simp [mapFind] at h
      subst h
      simp [mapInsert]
    · simp only [mapFind, if_neg hk] at h
      simp [mapInsert, hk, ih h]

theorem mapFind_some_mem {m : List (String × α)} {k : String} {v : α}
    (h : mapFind m k = some v) : (k, v) ∈ m := by
  induction m with
  | nil => simp [mapFind] at h
  | cons hd t ih =>
    obtain ⟨k', v'⟩ := hd
    by_cases hk : k' = k
    · subst hk
      simp [mapFind] at h
      subst h
      exact List.mem_cons_self _ _
    · simp only [mapFind, if_neg hk] at h
      exact List.mem_cons_of_mem _ (ih h)

theorem mem_mapFind_isSome {m : List (String × α)} {k : String} {v : α}
    (h : (k, v) ∈ m) : (mapFind m k).isSome = true := by
  induction m with
  | nil => simp at h
  | cons hd t ih =>
    obtain ⟨k', v'⟩ := hd
    by_cases hk : k' = k
    · simp [mapFind, hk]
    · simp only [mapFind, if_neg hk]
      rcases List.mem_cons.mp h with h1 | h1
      · exact absurd (congrArg Prod.fst h1).symm hk
      · exact ih h1

theorem mapInsert_mem_keys {m : List (String × α)} {k k' : String} {v v' : α}
    (h : (k', v') ∈ mapInsert m k v) : k' = k ∨ ∃ w, (k', w) ∈ m := by
  induction m with
  | nil =>
    simp only [mapInsert, List.mem_singleton] at h
    exact Or.inl (congrArg Prod.fst h)
  | cons hd t ih =>
    obtain ⟨k'', v''⟩ := hd
    by_cases hk : k'' = k
    · subst hk
      simp only [mapInsert, if_pos rfl] at h
      rcases List.mem_cons.mp h with h1 | h1
      · exact Or.inl (congrArg Prod.fst h1)
      · exact Or.inr ⟨v', List.mem_cons_of_mem _ h1⟩
    · simp only [mapInsert, if_neg hk] at h
      rcases List.mem_cons.mp h with h1 | h1
      · refine Or.inr ⟨v'', ?_⟩
        have hke : k' = k'' := congrArg Prod.fst h1
        subst hke
        exact List.mem_cons_self _ _
      · rcases ih h1 with h2 | ⟨w, h2⟩
        · exact Or.inl h2
        · exact Or.inr ⟨w, List.mem_cons_of_mem _ h2⟩

/-! ## Split/join round-trip facts

These justify recursing on the tail of the part list where the Go code
recurses on `strings.Join(parts[1:], separator)`: splitting that join gives
back `parts[1:]` whenever it is nonempty, since split segments never contain
the separator. -/

theorem splitChars_ne_nil : ∀ l : List Char, splitChars l ≠ []
  | [] => by simp [splitChars]
  | c :: rest => by
    by_cases h : c = '/'
    · simp [splitChars, h]
    · simp only [splitChars, if_neg h]
      rcases hr : splitChars rest with - | ⟨s, ss⟩ <;> simp

theorem splitChars_append {xs : List Char} (hxs : ∀ c ∈ xs, c ≠ '/') (r : List Char) :
    ∃ s ss, splitChars r = s :: ss ∧ splitChars (xs ++ r) = (⟨xs ++ s.data⟩ : String) :: ss := by
  induction xs with
  | nil =>
    rcases hr : splitChars r with - | ⟨s, ss⟩
    · exact absurd hr (splitChars_ne_nil r)
    · exact ⟨s, ss, rfl, by simpa using hr⟩
  | cons c xs ih =>
    obtain ⟨s, ss, hr, happ⟩ := ih (fun c hc => hxs c (List.mem_cons_of_mem _ hc))
    refine ⟨s, ss, hr, ?_⟩
    have hc : c ≠ '/' := hxs c (List.mem_cons_self _ _)
    simp only [List.cons_append, splitChars, if_neg hc, List.append_eq, happ]

theorem splitChars_sepfree {xs : List Char} (hxs : ∀ c ∈ xs, c ≠ '/') :
    splitChars xs = [(⟨xs⟩ : String)] := by
  obtain ⟨s, ss, hr, happ⟩ := splitChars_append hxs []
  simp only [splitChars, List.cons.injEq] at hr
  obtain ⟨h1, h2⟩ := hr
  subst h1
  subst h2
  simpa using happ

theorem splitPath_joinSegs : ∀ parts : List String, parts ≠ [] →
    (∀ s ∈ parts, ∀ c ∈ s.data, c ≠ '/') → splitPath (joinSegs parts) = parts
  | [], h, _ => absurd rfl h
  | [s], _, hsep => by
    have : splitChars s.data = [(⟨s.data⟩ : String)] :=
      splitChars_sepfree (hsep s (List.mem_singleton.mpr rfl))
    simpa [splitPath, joinSegs] using this
  | s :: q :: t, _, hsep => by
    have hs : ∀ c ∈ s.data, c ≠ '/' := hsep s (List.mem_cons_self _ _)
    have ih : splitPath (joinSegs (q :: t)) = q :: t :=
      splitPath_joinSegs (q :: t) (by simp) (fun x hx => hsep x (List.mem_cons_of_mem _ hx))
    show splitPath (s ++ "/" ++ joinSegs (q :: t)) = s :: q :: t
    have hdata : (s ++ "/" ++ joinSegs (q :: t)).data
        = s.data ++ '/' :: (joinSegs (q :: t)).data := by
      simp [String.data_append]
    obtain ⟨s', ss', hr, happ⟩ :=
      splitChars_append hs ('/' :: (joinSegs (q :: t)).data)
    simp only [splitChars, if_pos rfl] at hr
    have hsplit : splitChars (joinSegs (q :: t)).data = q :: t := ih
    rw [hsplit] at hr
    simp only [List.cons.injEq] at hr
    obtain ⟨h1, h2⟩ := hr
    unfold splitPath
    rw [hdata, happ]
    simp

theorem getDirS_seg (d : dir) (p : String) (hp : ∀ c ∈ p.data, c ≠ '/') :
    d.getDirS p = getDirSeg d p := by
  by_cases h : p = ""
  · simp [dir.getDirS, getDirSeg, h]
  · have : splitPath p = [p] := by
      have := splitChars_sepfree hp
      simpa [splitPath] using this
    rw [dir.getDirS, if_neg h, this, getDirSeg, if_neg h]
    rcases hfind : mapFind d.dirs p with - | child
    · simp [getDirP, hfind]
    · simp [getDirP, hfind, joinSegs]

/-! ## Order and sorting lemmas -/

theorem lexLtN_irrefl : ∀ l : List Nat, lexLtN l l = false
  | [] => rfl
  | _ :: as => by simp [lexLtN, lexLtN_irrefl as]

theorem lexLtN_trans : ∀ {a b c : List Nat},
    lexLtN a b = true → lexLtN b c = true → lexLtN a c = true
  | [], [], _, h, _ => by simp [lexLtN] at h
  | [], _ :: _, [], _, h => by simp [lexLtN] at h
  | [], _ :: _, _ :: _, _, _ => rfl
  | _ :: _, [], _, h, _ => by simp [lexLtN] at h
  | _ :: _, _ :: _, [], _, h => by simp [lexLtN] at h
  | a :: as, b :: bs, c :: cs, h1, h2 => by
    simp only [lexLtN] at h1 h2 ⊢
    rcases Nat.lt_trichotomy a b with hab | hab | hab
    · rcases Nat.lt_trichotomy b c with hbc | hbc | hbc
      · rw [if_pos (Nat.lt_trans hab hbc)]
      · subst hbc; rw [if_pos hab]
      · rw [if_neg (by omega), if_pos hbc] at h2; exact absurd h2 (by simp)
    · subst hab
      rw [if_neg (Nat.lt_irrefl a), if_neg (Nat.lt_irrefl a)] at h1
      rcases Nat.lt_trichotomy a c with hac | hac | hac
      · rw [if_pos hac]
      · subst hac
        rw [if_neg (Nat.lt_irrefl a), if_neg (Nat.lt_irrefl a)] at h2 ⊢
        exact lexLtN_trans h1 h2
      · rw [if_neg (by omega), if_pos hac] at h2; exact absurd h2 (by simp)
    · rw [if_neg (by omega), if_pos hab] at h1; exact absurd h1 (by simp)

theorem lexLtN_tri : ∀ a b : List Nat, lexLtN a b = true ∨ a = b ∨ lexLtN b a = true
  | [], [] => Or.inr (Or.inl rfl)
  | [], _ :: _ => Or.inl rfl
  | _ :: _, [] => Or.inr (Or.inr rfl)
  | a :: as, b :: bs => by
    rcases Nat.lt_trichotomy a b with h | h | h
    · exact Or.inl (by simp [lexLtN, h])
    · subst h
      rcases lexLtN_tri as bs with h | h | h
      · exact Or.inl (by simp [lexLtN, h])
      · exact Or.inr (Or.inl (by rw [h]))
      · exact Or.inr (Or.inr (by simp [lexLtN, h]))
    · exact Or.inr (Or.inr (by simp [lexLtN, h]))

theorem nameLe_total (a b : String) : nameLe a b = true ∨ nameLe b a = true := by
  by_cases h1 : nameLt b a = true
  · by_cases h2 : nameLt a b = true
    · have : lexLtN (codes a) (codes a) = true :=
        lexLtN_trans (a := codes a) h2 h1
      rw [lexLtN_irrefl] at this
      exact absurd this (by simp)
    · exact Or.inr (by simp [nameLe, Bool.not_eq_true] at h2 ⊢; exact h2)
  · exact Or.inl (by simp [nameLe, Bool.not_eq_true] at h1 ⊢; exact h1)

theorem nameLe_trans {a b c : String} (h1 : nameLe a b = true) (h2 : nameLe b c = true) :
    nameLe a c = true := by
  have h1' : lexLtN (codes b) (codes a) = false := by
    simp only [nameLe, Bool.not_eq_true', nameLt] at h1
    exact h1
  have h2' : lexLtN (codes c) (codes b) = false := by
    simp only [nameLe, Bool.not_eq_true', nameLt] at h2
    exact h2
  simp only [nameLe, Bool.not_eq_true', nameLt]
  by_contra hca
  rw [Bool.not_eq_false] at hca
  rcases lexLtN_tri (codes c) (codes b) with h | h | h
  · rw [h] at h2'; exact absurd h2' (by simp)
  · rw [← h] at h1'
    rw [hca] at h1'
    exact absurd h1' (by simp)
  · have hba : lexLtN (codes b) (codes a) = true := lexLtN_trans h hca
    rw [hba] at h1'
    exact absurd h1' (by simp)

theorem insertSorted_perm (x : fileinfo) : ∀ l, (insertSorted x l).Perm (x :: l)
  | [] => List.Perm.refl _
  | y :: t => by
    simp only [insertSorted]
    split
    · exact List.Perm.refl _
    · exact ((insertSorted_perm x t).cons y).trans (List.Perm.swap x y t)

theorem sortByName_perm : ∀ l, (sortByName l).Perm l
  | [] => List.Perm.refl _
  | x :: t => (insertSorted_perm x (sortByName t)).trans ((sortByName_perm t).cons x)

theorem mem_insertSorted {a x : fileinfo} {l : List fileinfo}
    (h : a ∈ insertSorted x l) : a = x ∨ a ∈ l := by
  have := (insertSorted_perm x l).mem_iff.mp h
  simpa using this

theorem pairwise_insertSorted {x : fileinfo} :
    ∀ {l : List fileinfo}, l.Pairwise (fun a b => nameLe a.name b.name = true) →
      (insertSorted x l).Pairwise (fun a b => nameLe a.name b.name = true) := by
  intro l
  induction l with
  | nil => intro _; simp [insertSorted]
  | cons y t ih =>
    intro h
    rw [List.pairwise_cons] at h
    obtain ⟨hy, ht⟩ := h
    simp only [insertSorted]
    split
    · rename_i hxy
      rw [List.pairwise_cons]
      refine ⟨?_, List.pairwise_cons.mpr ⟨hy, ht⟩⟩
      intro b hb
      rcases List.mem_cons.mp hb with rfl | hb
      · exact hxy
      · exact nameLe_trans hxy (hy b hb)
    · rename_i hxy
      rw [List.pairwise_cons]
      refine ⟨?_, ih ht⟩
      intro b hb
      rcases mem_insertSorted hb with rfl | hb
      · rcases nameLe_total b.name y.name with h | h
        · exact absurd h hxy
        · exact h
      · exact hy b hb

theorem sortByName_pairwise :
    ∀ l : List fileinfo, (sortByName l).Pairwise (fun a b => nameLe a.name b.name = true)
  | [] => by simp [sortByName]
  | x :: t => pairwise_insertSorted (sortByName_pairwise t)

/-! ## Error classification: every internal lookup failure is the bare
`fs.ErrNotExist` sentinel -/

theorem isSome_false_eq_none {o : Option α} (h : o.isSome = false) : o = none := by
  cases o
  · rfl
  · simp at h

theorem getDirP_error : ∀ (d : dir) (parts : List String) {e : FsError},
    getDirP d parts = .error e → e = .notExist
  | _, [], e => by simp [getDirP]
  | d, p :: rest, e => by
    rcases hf : mapFind d.dirs p with - | child
    · simp only [getDirP, hf]
      intro h
      exact (Except.error.inj h).symm
    · simp only [getDirP, hf]
      by_cases hj : joinSegs rest = ""
      · simp [hj]
      · simp only [if_neg hj]
        exact getDirP_error child rest

theorem getDirSeg_error {d : dir} {p : String} {e : FsError}
    (h : getDirSeg d p = .error e) : e = .notExist := by
  unfold getDirSeg at h
  by_cases hp : p = ""
  · rw [if_pos hp] at h
    simp at h
  · rw [if_neg hp] at h
    rcases hf : mapFind d.dirs p with - | child <;> rw [hf] at h
    · exact (Except.error.inj h).symm
    · simp at h

theorem getFileP_error : ∀ (d : dir) (parts : List String) {e : FsError},
    getFileP d parts = .error e → e = .notExist
  | _, [], e => by
    intro h
    exact (Except.error.inj h).symm
  | d, [p], e => by
    rcases hf : mapFind d.files p with - | f
    · simp only [getFileP, hf]
      intro h
      exact (Except.error.inj h).symm
    · simp [getFileP, hf]
  | d, p :: q :: t, e => by
    cases hs : getDirSeg d p with
    | error es =>
      simp only [getFileP, hs]
      intro h
      rw [← Except.error.inj h]
      exact getDirSeg_error hs
    | ok sub =>
      simp only [getFileP, hs]
      exact getFileP_error sub (q :: t)

theorem getFileS_error {d : dir} {name : String} {e : FsError}
    (h : d.getFileS name = .error e) : e = .notExist :=
  getFileP_error d (splitPath name) h

theorem getDirS_error {d : dir} {name : String} {e : FsError}
    (h : d.getDirS name = .error e) : e = .notExist := by
  unfold dir.getDirS at h
  by_cases hn : name = ""
  · rw [if_pos hn] at h
    simp at h
  · rw [if_neg hn] at h
    exact getDirP_error d (splitPath name) h

/-! ## WriteFile lemmas -/

theorem writeFileP_error : ∀ (d : dir) (parts : List String) (data : List Nat)
    (perm now : Nat) {e : FsError} {d' : dir},
    writeFileP d parts data perm now = (some e, d') → e = .notExist ∧ d' = d
  | d, [], data, perm, now, e, d' => by
    intro h
    simp only [writeFileP, Prod.mk.injEq] at h
    exact ⟨(Option.some.inj h.1).symm, h.2.symm⟩
  | d, [p], data, perm, now, e, d' => by
    intro h
    simp only [writeFileP, Prod.mk.injEq] at h
    exact absurd h.1 (by simp)
  | d, p :: q :: t, data, perm, now, e, d' => by
    intro h
    rcases hf : mapFind d.dirs p with - | child
    · simp only [writeFileP, hf, Prod.mk.injEq] at h
      exact ⟨(Option.some.inj h.1).symm, h.2.symm⟩
    · simp only [writeFileP, hf, Prod.mk.injEq] at h
      obtain ⟨h1, h2⟩ := h
      have hrec : writeFileP child (q :: t) data perm now
          = (some e, (writeFileP child (q :: t) data perm now).2) := by
        rw [← h1]
      obtain ⟨he, hsame⟩ := writeFileP_error child (q :: t) data perm now hrec
      refine ⟨he, ?_⟩
      rw [← h2, hsame, mapInsert_find_eq _ _ _ hf]
      exact dir.eta d

theorem writeFileP_getFile : ∀ (d : dir) (parts : List String) (data : List Nat)
    (perm now : Nat) {d' : dir}, "" ∉ parts →
    writeFileP d parts data perm now = (none, d') →
    getFileP d' parts = .ok ⟨⟨lastSeg parts, data.length, now, false, perm⟩, data⟩
  | d, [], data, perm, now, d', hne, h => by
    simp only [writeFileP, Prod.mk.injEq] at h
    exact absurd h.1 (by simp)
  | d, [p], data, perm, now, d', hne, h => by
    simp only [writeFileP, Prod.mk.injEq] at h
    obtain ⟨-, h2⟩ := h
    rw [← h2]
    simp only [getFileP, dir.files, lastSeg]
    rw [mapFind_insert_self]
  | d, p :: q :: t, data, perm, now, d', hne, h => by
    have hp : p ≠ "" := by
      intro hh
      subst hh
      exact hne (List.mem_cons_self _ _)
    rcases hf : mapFind d.dirs p with - | child
    · simp only [writeFileP, hf, Prod.mk.injEq] at h
      exact absurd h.1 (by simp)
    · simp only [writeFileP, hf, Prod.mk.injEq] at h
      obtain ⟨h1, h2⟩ := h
      have hrec : writeFileP child (q :: t) data perm now
          = (none, (writeFileP child (q :: t) data perm now).2) := by
        rw [← h1]
      have ih := writeFileP_getFile child (q :: t) data perm now
        (fun hh => hne (List.mem_cons_of_mem _ hh)) hrec
      rw [← h2]
      simp only [getFileP, getDirSeg, if_neg hp, dir.dirs]
      rw [mapFind_insert_self]
      simpa [lastSeg] using ih

/-! ## Invariant bookkeeping lemmas -/

theorem invAll_find : ∀ {ds : List (String × dir)} {k : String} {c : dir},
    invAll ds = true → mapFind ds k = some c → c.inv = true
  | [], _, _, _, hf => by simp [mapFind] at hf
  | (k', v) :: t, k, c, hall, hf => by
    simp only [invAll, Bool.and_eq_true] at hall
    by_cases hk : k' = k
    · simp only [mapFind, if_pos hk, Option.some.injEq] at hf
      subst hf
      exact hall.1
    · simp only [mapFind, if_neg hk] at hf
      exact invAll_find hall.2 hf

theorem invAll_insert : ∀ {ds : List (String × dir)} {k : String} {c : dir},
    invAll ds = true → c.inv = true → invAll (mapInsert ds k c) = true
  | [], k, c, _, hc => by simp [mapInsert, invAll, hc]
  | (k', v) :: t, k, c, hall, hc => by
    simp only [invAll, Bool.and_eq_true] at hall
    by_cases hk : k' = k
    · simp [mapInsert, if_pos hk, invAll, hc, hall.2]
    · simp only [mapInsert, if_neg hk, invAll, Bool.and_eq_true]
      exact ⟨hall.1, invAll_insert hall.2 hc⟩

theorem disjointKeys_insert_dir {ds : List (String × dir)} {fs : List (String × file)}
    {p : String} {c : dir} (h : disjointKeys ds fs = true) (hp : mapFind fs p = none) :
    disjointKeys (mapInsert ds p c) fs = true := by
  rw [disjointKeys, List.all_eq_true]
  intro x hx
  obtain ⟨k, v⟩ := x
  rcases mapInsert_mem_keys hx with rfl | ⟨w, hw⟩
  · simp [hp]
  · rw [disjointKeys, List.all_eq_true] at h
    exact h (k, w) hw

theorem disjointKeys_insert_file {ds : List (String × dir)} {fs : List (String × file)}
    {p : String} {f : file} (h : disjointKeys ds fs = true) (hp : mapFind ds p = none) :
    disjointKeys ds (mapInsert fs p f) = true := by
  rw [disjointKeys, List.all_eq_true]
  intro x hx
  obtain ⟨k, v⟩ := x
  have hk : k ≠ p := by
    intro hh
    subst hh
    have := mem_mapFind_isSome hx
    rw [hp] at this
    simp at this
  rw [mapFind_insert_ne _ _ _ _ hk]
  rw [disjointKeys, List.all_eq_true] at h
  exact h (k, v) hx

/-! ## Strip (timestamp-erasure) lemmas -/

theorem fileinfo_strip2 (i : fileinfo) (n : Nat) :
    ({ { i with modified := n } with modified := 0 } : fileinfo) = { i with modified := 0 } := rfl

theorem stripAll_insert_existing : ∀ (ds : List (String × dir)) (p : String) (c c' : dir),
    mapFind ds p = some c → c'.strip = c.strip →
    stripAll (mapInsert ds p c') = stripAll ds
  | [], _, _, _, hf, _ => by simp [mapFind] at hf
  | (k, v) :: t, p, c, c', hf, hc => by
    by_cases hk : k = p
    · subst hk
      simp [mapFind] at hf
      subst hf
      simp [mapInsert, stripAll, hc]
    · simp only [mapFind, if_neg hk] at hf
      simp only [mapInsert, if_neg hk, stripAll]
      rw [stripAll_insert_existing t p c c' hf hc]

/-! ## MkdirAll lemmas

Three step equations unfold one level of `mkdirAllP` on a destructured node,
one per combination of the two lookups the Go method performs (file-collision
check, child-directory existence check).  All further `MkdirAll` reasoning
goes through them. -/

theorem mkdirAllP_step_exist {i : fileinfo} {ds : List (String × dir)}
    {fs : List (String × file)} {p : String} {rest : List String} {perm now : Nat}
    {f0 : file} (hfile : mapFind fs p = some f0) :
    mkdirAllP (.mk i ds fs) (p :: rest) perm now = (some .exist, .mk i ds fs) := by
  simp [mkdirAllP, dir.files, hfile]

theorem mkdirAllP_step_found (i : fileinfo) (ds : List (String × dir))
    (fs : List (String × file)) (p : String) (rest : List String) (perm now : Nat)
    (hfile : mapFind fs p = none) (child : dir) (hdir : mapFind ds p = some child) :
    mkdirAllP (.mk i ds fs) (p :: rest) perm now =
      if rest = [] then (none, .mk { i with modified := now } ds fs)
      else
        ((mkdirAllP child rest perm now).1,
          .mk { i with modified := now }
            (mapInsert ds p (mkdirAllP child rest perm now).2) fs) := by
  simp only [mkdirAllP, dir.files, dir.dirs, dir.info, hfile, hdir]

theorem mkdirAllP_step_create (i : fileinfo) (ds : List (String × dir))
    (fs : List (String × file)) (p : String) (rest : List String) (perm now : Nat)
    (hfile : mapFind fs p = none) (hdir : mapFind ds p = none) :
    mkdirAllP (.mk i ds fs) (p :: rest) perm now =
      if rest = [] then
        (none, .mk { i with modified := now }
          (mapInsert ds p (.mk ⟨p, 0x100, now, true, perm⟩ [] [])) fs)
      else
        ((mkdirAllP (.mk ⟨p, 0x100, now, true, perm⟩ [] []) rest perm now).1,
          .mk { i with modified := now }
            (mapInsert (mapInsert ds p (.mk ⟨p, 0x100, now, true, perm⟩ [] [])) p
              (mkdirAllP (.mk ⟨p, 0x100, now, true, perm⟩ [] []) rest perm now).2) fs) := by
  simp only [mkdirAllP, dir.files, dir.dirs, dir.info, hfile, hdir, mapFind_insert_self]

theorem mkdirAllP_fresh : ∀ (parts : List String) (i : fileinfo) (perm now : Nat),
    (mkdirAllP (.mk i [] []) parts perm now).1 = none
  | [], _, _, _ => rfl
  | p :: rest, i, perm, now => by
    rw [mkdirAllP_step_create i [] [] p rest perm now rfl rfl]
    by_cases hrest : rest = []
    · simp [hrest]
    · simp only [if_neg hrest]
      exact mkdirAllP_fresh rest _ perm now

theorem mkdirAllP_error_exist : ∀ (d : dir) (parts : List String) (perm now : Nat)
    {e : FsError} {d' : dir}, mkdirAllP d parts perm now = (some e, d') → e = .exist
  | d, [], perm, now, e, d' => by
    intro h
    simp only [mkdirAllP, Prod.mk.injEq] at h
    exact absurd h.1 (by simp)
  | d, p :: rest, perm, now, e, d' => by
    obtain ⟨i, ds, fs⟩ := d
    intro h
    rcases hfile : mapFind fs p with - | f0
    · rcases hdir : mapFind ds p with - | child
      · rw [mkdirAllP_step_create i ds fs p rest perm now hfile hdir] at h
        by_cases hrest : rest = []
        · rw [if_pos hrest] at h
          have h1 : (none : Option FsError) = some e := congrArg Prod.fst h
          exact absurd h1 (by simp)
        · rw [if_neg hrest] at h
          have h1 : (mkdirAllP (.mk ⟨p, 0x100, now, true, perm⟩ [] []) rest perm now).1
              = some e := congrArg Prod.fst h
          rw [mkdirAllP_fresh rest _ perm now] at h1
          exact absurd h1 (by simp)
      · rw [mkdirAllP_step_found i ds fs p rest perm now hfile child hdir] at h
        by_cases hrest : rest = []
        · rw [if_pos hrest] at h
          have h1 : (none : Option FsError) = some e := congrArg Prod.fst h
          exact absurd h1 (by simp)
        · rw [if_neg hrest] at h
          have h1 : (mkdirAllP child rest perm now).1 = some e := congrArg Prod.fst h
          have hrec : mkdirAllP child rest perm now
              = (some e, (mkdirAllP child rest perm now).2) := by
            rw [← h1]
          exact mkdirAllP_error_exist child rest perm now hrec
    · rw [mkdirAllP_step_exist hfile] at h
      exact (Option.some.inj (congrArg Prod.fst h)).symm

theorem dir_inv_mk {i : fileinfo} {ds : List (String × dir)} {fs : List (String × file)} :
    (dir.mk i ds fs).inv = (disjointKeys ds fs && invAll ds) := by
  simp [dir.inv]

theorem disjointKeys_find_none {ds : List (String × dir)} {fs : List (String × file)}
    {p : String} {c : dir} (h : disjointKeys ds fs = true) (hf : mapFind ds p = some c) :
    mapFind fs p = none := by
  rw [disjointKeys, List.all_eq_true] at h
  have := h (p, c) (mapFind_some_mem hf)
  simpa using this

theorem mkdirAllP_error_strip : ∀ (d : dir) (parts : List String) (perm now : Nat)
    {e : FsError} {d' : dir}, mkdirAllP d parts perm now = (some e, d') → d'.strip = d.strip
  | d, [], perm, now, e, d' => by
    intro h
    simp only [mkdirAllP, Prod.mk.injEq] at h
    exact absurd h.1 (by simp)
  | d, p :: rest, perm, now, e, d' => by
    obtain ⟨i, ds, fs⟩ := d
    intro h
    rcases hfile : mapFind fs p with - | f0
    · rcases hdir : mapFind ds p with - | child
      · rw [mkdirAllP_step_create i ds fs p rest perm now hfile hdir] at h
        by_cases hrest : rest = []
        · rw [if_pos hrest, Prod.mk.injEq] at h
          exact absurd h.1 (by simp)
        · rw [if_neg hrest, Prod.mk.injEq] at h
          have h1 := h.1
          rw [mkdirAllP_fresh rest _ perm now] at h1
          exact absurd h1 (by simp)
      · rw [mkdirAllP_step_found i ds fs p rest perm now hfile child hdir] at h
        by_cases hrest : rest = []
        · rw [if_pos hrest, Prod.mk.injEq] at h
          exact absurd h.1 (by simp)
        · rw [if_neg hrest, Prod.mk.injEq] at h
          obtain ⟨h1, h2⟩ := h
          subst h2
          have hrec : mkdirAllP child rest perm now
              = (some e, (mkdirAllP child rest perm now).2) := by rw [← h1]
          have ihs := mkdirAllP_error_strip child rest perm now hrec
          simp only [dir.strip]
          rw [stripAll_insert_existing ds p child _ hdir ihs]
    · rw [mkdirAllP_step_exist hfile, Prod.mk.injEq] at h
      obtain ⟨-, h2⟩ := h
      subst h2
      rfl

theorem mkdirAllP_idem : ∀ (d : dir) (parts : List String) (perm now : Nat) {d' : dir}
    (perm' now' : Nat), mkdirAllP d parts perm now = (none, d') →
    (mkdirAllP d' parts perm' now').1 = none
  | d, [], _, _, d', _, _, _ => rfl
  | d, p :: rest, perm, now, d', perm', now', h => by
    obtain ⟨i, ds, fs⟩ := d
    rcases hfile : mapFind fs p with - | f0
    · rcases hdir : mapFind ds p with - | child
      · rw [mkdirAllP_step_create i ds fs p rest perm now hfile hdir] at h
        by_cases hrest : rest = []
        · rw [if_pos hrest, Prod.mk.injEq] at h
          obtain ⟨-, h2⟩ := h
          subst h2
          rw [mkdirAllP_step_found _ _ fs p rest perm' now' hfile _ (mapFind_insert_self ds p _),
            if_pos hrest]
        · rw [if_neg hrest, Prod.mk.injEq] at h
          obtain ⟨h1, h2⟩ := h
          subst h2
          rw [mkdirAllP_step_found _ _ fs p rest perm' now' hfile _ (mapFind_insert_self _ p _),
            if_neg hrest]
          have hrec : mkdirAllP (.mk ⟨p, 0x100, now, true, perm⟩ [] []) rest perm now
              = (none, (mkdirAllP (.mk ⟨p, 0x100, now, true, perm⟩ [] []) rest perm now).2) := by
            rw [← mkdirAllP_fresh rest (⟨p, 0x100, now, true, perm⟩ : fileinfo) perm now]
          exact mkdirAllP_idem _ rest perm now perm' now' hrec
      · rw [mkdirAllP_step_found i ds fs p rest perm now hfile child hdir] at h
        by_cases hrest : rest = []
        · rw [if_pos hrest, Prod.mk.injEq] at h
          obtain ⟨-, h2⟩ := h
          subst h2
          rw [mkdirAllP_step_found _ ds fs p rest perm' now' hfile child hdir, if_pos hrest]
        · rw [if_neg hrest, Prod.mk.injEq] at h
          obtain ⟨h1, h2⟩ := h
          subst h2
          rw [mkdirAllP_step_found _ _ fs p rest perm' now' hfile _ (mapFind_insert_self ds p _),
            if_neg hrest]
          have hrec : mkdirAllP child rest perm now
              = (none, (mkdirAllP child rest perm now).2) := by rw [← h1]
          exact mkdirAllP_idem child rest perm now perm' now' hrec
    · rw [mkdirAllP_step_exist hfile, Prod.mk.injEq] at h
      exact absurd h.1 (by simp)

theorem mkdirAllP_inv : ∀ (d : dir) (parts : List String) (perm now : Nat),
    d.inv = true → (mkdirAllP d parts perm now).2.inv = true
  | _, [], _, _, hinv => hinv
  | d, p :: rest, perm, now, hinv => by
    obtain ⟨i, ds, fs⟩ := d
    rw [dir_inv_mk, Bool.and_eq_true] at hinv
    obtain ⟨hdisj, hall⟩ := hinv
    have hfreshinv : (dir.mk (⟨p, 0x100, now, true, perm⟩ : fileinfo) [] []).inv = true := by
      simp [dir.inv, disjointKeys, invAll]
    rcases hfile : mapFind fs p with - | f0
    · rcases hdir : mapFind ds p with - | child
      · rw [mkdirAllP_step_create i ds fs p rest perm now hfile hdir]
        by_cases hrest : rest = []
        · rw [if_pos hrest]
          rw [dir_inv_mk, Bool.and_eq_true]
          exact ⟨disjointKeys_insert_dir hdisj hfile, invAll_insert hall hfreshinv⟩
        · rw [if_neg hrest]
          have hall1 : invAll (mapInsert ds p (.mk ⟨p, 0x100, now, true, perm⟩ [] [])) = true :=
            invAll_insert hall hfreshinv
          have hdisj1 := disjointKeys_insert_dir (c := .mk ⟨p, 0x100, now, true, perm⟩ [] [])
            hdisj hfile
          have hr2 := mkdirAllP_inv (.mk ⟨p, 0x100, now, true, perm⟩ [] []) rest perm now
            hfreshinv
          rw [dir_inv_mk, Bool.and_eq_true]
          exact ⟨disjointKeys_insert_dir hdisj1 hfile, invAll_insert hall1 hr2⟩
      · rw [mkdirAllP_step_found i ds fs p rest perm now hfile child hdir]
        by_cases hrest : rest = []
        · rw [if_pos hrest]
          rw [dir_inv_mk, Bool.and_eq_true]
          exact ⟨hdisj, hall⟩
        · rw [if_neg hrest]
          have hchildinv : child.inv = true := invAll_find hall hdir
          have hr2 := mkdirAllP_inv child rest perm now hchildinv
          rw [dir_inv_mk, Bool.and_eq_true]
          exact ⟨disjointKeys_insert_dir hdisj hfile, invAll_insert hall hr2⟩
    · rw [mkdirAllP_step_exist hfile, dir_inv_mk, Bool.and_eq_true]
      exact ⟨hdisj, hall⟩

theorem writeFileP_inv : ∀ (d : dir) (parts : List String) (data : List Nat) (perm now : Nat),
    d.inv = true → writeTargetHasDir d parts = false →
    (writeFileP d parts data perm now).2.inv = true
  | _, [], _, _, _, hinv, _ => hinv
  | d, [p], data, perm, now, hinv, hcol => by
    obtain ⟨i, ds, fs⟩ := d
    rw [dir_inv_mk, Bool.and_eq_true] at hinv
    obtain ⟨hdisj, hall⟩ := hinv
    simp only [writeTargetHasDir, dir.dirs] at hcol
    have hnone : mapFind ds p = none := isSome_false_eq_none hcol
    simp only [writeFileP]
    rw [dir_inv_mk, Bool.and_eq_true]
    exact ⟨disjointKeys_insert_file hdisj hnone, hall⟩
  | d, p :: q :: t, data, perm, now, hinv, hcol => by
    obtain ⟨i, ds, fs⟩ := d
    rw [dir_inv_mk, Bool.and_eq_true] at hinv
    obtain ⟨hdisj, hall⟩ := hinv
    rcases hf : mapFind ds p with - | child
    · simp only [writeFileP, dir.dirs, hf]
      rw [dir_inv_mk, Bool.and_eq_true]
      exact ⟨hdisj, hall⟩
    · simp only [writeTargetHasDir, dir.dirs, hf] at hcol
      have hchildinv : child.inv = true := invAll_find hall hf
      have ih := writeFileP_inv child (q :: t) data perm now hchildinv hcol
      simp only [writeFileP, dir.dirs, dir.files, dir.info, hf]
      rw [dir_inv_mk, Bool.and_eq_true]
      have hfp : mapFind fs p = none := disjointKeys_find_none hdisj hf
      exact ⟨disjointKeys_insert_dir hdisj hfp, invAll_insert hall ih⟩

theorem mkdirAllP_touch : ∀ (d : dir) (parts : List String) (perm now : Nat) {d' : dir},
    mkdirAllP d parts perm now = (none, d') →
    ∀ k, k < parts.length →
      ∃ n, resolveDirs d' (List.take k parts) = some n ∧ n.info.modified = now
  | _, [], _, _, _, _, k, hk => by simp at hk
  | d, p :: rest, perm, now, d', h, k, hk => by
    obtain ⟨i, ds, fs⟩ := d
    rcases hfile : mapFind fs p with - | f0
    · rcases hdir : mapFind ds p with - | child
      · rw [mkdirAllP_step_create i ds fs p rest perm now hfile hdir] at h
        by_cases hrest : rest = []
        · rw [if_pos hrest, Prod.mk.injEq] at h
          obtain ⟨-, h2⟩ := h
          subst h2
          subst hrest
          have hk0 : k = 0 := by simpa using hk
          subst hk0
          exact ⟨_, rfl, rfl⟩
        · rw [if_neg hrest, Prod.mk.injEq] at h
          obtain ⟨h1, h2⟩ := h
          subst h2
          match k with
          | 0 => exact ⟨_, rfl, rfl⟩
          | j + 1 =>
            have hrec : mkdirAllP (.mk ⟨p, 0x100, now, true, perm⟩ [] []) rest perm now
                = (none,
                  (mkdirAllP (.mk ⟨p, 0x100, now, true, perm⟩ [] []) rest perm now).2) := by
              rw [← h1]
            obtain ⟨n, hn, hmod⟩ := mkdirAllP_touch _ rest perm now hrec j
              (by simpa using Nat.lt_of_succ_lt_succ hk)
            refine ⟨n, ?_, hmod⟩
            simpa [resolveDirs, dir.dirs, mapFind_insert_self] using hn
      · rw [mkdirAllP_step_found i ds fs p rest perm now hfile child hdir] at h
        by_cases hrest : rest = []
        · rw [if_pos hrest, Prod.mk.injEq] at h
          obtain ⟨-, h2⟩ := h
          subst h2
          subst hrest
          have hk0 : k = 0 := by simpa using hk
          subst hk0
          exact ⟨_, rfl, rfl⟩
        · rw [if_neg hrest, Prod.mk.injEq] at h
          obtain ⟨h1, h2⟩ := h
          subst h2
          match k with
          | 0 => exact ⟨_, rfl, rfl⟩
          | j + 1 =>
            have hrec : mkdirAllP child rest perm now
                = (none, (mkdirAllP child rest perm now).2) := by rw [← h1]
            obtain ⟨n, hn, hmod⟩ := mkdirAllP_touch child rest perm now hrec j
              (by simpa using Nat.lt_of_succ_lt_succ hk)
            refine ⟨n, ?_, hmod⟩
            simpa [resolveDirs, dir.dirs, mapFind_insert_self] using hn
    · rw [mkdirAllP_step_exist hfile, Prod.mk.injEq] at h
      exact absurd h.1 (by simp)

theorem readDirP_eq : ∀ (d : dir) (parts : List String),
    readDirP d parts = (getDirP d parts).map childEntries
  | _, [] => rfl
  | d, p :: rest => by
    rcases hf : mapFind d.dirs p with - | child
    · simp [readDirP, getDirP, hf, Except.map]
    · simp only [readDirP, getDirP, hf]
      by_cases hj : joinSegs rest = ""
      · simp [hj, Except.map]
      · simp only [if_neg hj]
        exact readDirP_eq child rest

/-! ## Claim theorems -/

/-- C1 counterexample: the invariant "a name cannot simultaneously exist as
both a child directory and a file entry within the same node" is NOT preserved
by `WriteFile`.  Starting from a fresh filesystem, `MkdirAll "a"` yields a
state satisfying the invariant, `WriteFile "a"` then succeeds, and the
resulting (reachable) state has `"a"` both as a child directory and as a file
entry of the root. -/
theorem C1_counterexample :
    ((mkdirAllP (FS.New 0).root ["a"] 0o700 1).2).inv = true ∧
    (writeFileP (mkdirAllP (FS.New 0).root ["a"] 0o700 1).2 ["a"] [7] 0o644 2).1 = none ∧
    ((writeFileP (mkdirAllP (FS.New 0).root ["a"] 0o700 1).2 ["a"] [7] 0o644 2).2).inv
      = false := by
  refine ⟨by decide, rfl, by decide⟩

/-- C1 (amended): on every node satisfying the name-disjointness invariant,
`MkdirAll` preserves it unconditionally (the read-only operations Open, Stat
and ReadDir do not modify the tree at all), and `WriteFile` preserves it
provided the final path segment does not name an existing child directory of
the node the write lands in. -/
theorem C1_invariant_preservation (d : dir) (parts : List String) (data : List Nat)
    (perm now : Nat) (h : d.inv = true) :
    (mkdirAllP d parts perm now).2.inv = true ∧
    (writeTargetHasDir d parts = false → (writeFileP d parts data perm now).2.inv = true) :=
  ⟨mkdirAllP_inv d parts perm now h, fun hc => writeFileP_inv d parts data perm now h hc⟩

/-- C1 witness: the amended preservation theorem applied to a fresh filesystem,
a directory creation and a file write. -/
theorem C1_invariant_preservation_witness :
    (mkdirAllP (FS.New 0).root ["a", "b"] 0o700 1).2.inv = true ∧
    (writeFileP (FS.New 0).root ["f"] [1, 2] 0o644 1).2.inv = true :=
  ⟨(C1_invariant_preservation (FS.New 0).root ["a", "b"] [1, 2] 0o700 1 (by decide)).1,
   (C1_invariant_preservation (FS.New 0).root ["f"] [1, 2] 0o644 1 (by decide)).2 (by decide)⟩

/-- C2 counterexample: a failed `MkdirAll` does NOT leave the tree identical.
On a root containing directory `a` with file `a/b`, `MkdirAll "a/b"` fails
with already-exists, yet the root's modified timestamp has been updated to the
current time, so the tree after the call differs from the tree before. -/
theorem C2_counterexample :
    (mkdirAllP (writeFileP (mkdirAllP (FS.New 0).root ["a"] 0o700 0).2 ["a", "b"] [1] 0o644 0).2
        ["a", "b"] 0o700 5).1 = some .exist ∧
    ((mkdirAllP (writeFileP (mkdirAllP (FS.New 0).root ["a"] 0o700 0).2 ["a", "b"] [1] 0o644 0).2
        ["a", "b"] 0o700 5).2).info.modified = 5 ∧
    ((writeFileP (mkdirAllP (FS.New 0).root ["a"] 0o700 0).2
        ["a", "b"] [1] 0o644 0).2).info.modified = 0 ∧
    (mkdirAllP (writeFileP (mkdirAllP (FS.New 0).root ["a"] 0o700 0).2 ["a", "b"] [1] 0o644 0).2
        ["a", "b"] 0o700 5).2
      ≠ (writeFileP (mkdirAllP (FS.New 0).root ["a"] 0o700 0).2 ["a", "b"] [1] 0o644 0).2 := by
  refine ⟨rfl, rfl, rfl, ?_⟩
  intro hh
  have h5 : (5 : Nat) = 0 := congrArg (fun x => x.info.modified) hh
  exact absurd h5 (by decide)

/-- C2 (amended): a failed `WriteFile` leaves the tree exactly as it was; a
failed `MkdirAll` adds no directories or file entries and changes no content,
size, name or permission (the trees agree after erasing modified timestamps),
but it does update the modified timestamps of the directories it traversed
before the failing segment. -/
theorem C2_failed_ops_effect (d : dir) (parts : List String) (data : List Nat)
    (perm now : Nat) (e : FsError) :
    ((writeFileP d parts data perm now).1 = some e →
      (writeFileP d parts data perm now).2 = d) ∧
    ((mkdirAllP d parts perm now).1 = some e →
      (mkdirAllP d parts perm now).2.strip = d.strip) := by
  constructor
  · intro h1
    exact (writeFileP_error d parts data perm now (by rw [← h1])).2
  · intro h1
    exact mkdirAllP_error_strip d parts perm now (by rw [← h1])

/-- C2 witness: the amended theorem applied to a write into a missing
directory and to a directory creation colliding with an existing file. -/
theorem C2_failed_ops_effect_witness :
    (writeFileP (FS.New 0).root ["a", "b"] [1] 0o644 5).2 = (FS.New 0).root ∧
    (mkdirAllP (writeFileP (FS.New 0).root ["a"] [1] 0o644 0).2 ["a"] 0o700 5).2.strip
      = ((writeFileP (FS.New 0).root ["a"] [1] 0o644 0).2).strip :=
  ⟨(C2_failed_ops_effect (FS.New 0).root ["a", "b"] [1] 0o644 5 .notExist).1 (by decide),
   (C2_failed_ops_effect (writeFileP (FS.New 0).root ["a"] [1] 0o644 0).2
      ["a"] [1] 0o700 5 .exist).2 (by decide)⟩

/-- C3: for every byte sequence (empty and null bytes included) and every path
on which `WriteFile` succeeds (a well-formed path: not `""` or `"."`, no empty
segment), a subsequent `Open` of the same path yields a file handle whose full
read returns exactly the written bytes. -/
theorem C3_write_then_read (d : dir) (path : String) (parts : List String)
    (data : List Nat) (perm now : Nat) (d' : dir)
    (hsplit : parts = splitPath path) (hdot : path ≠ ".") (hempty : "" ∉ parts)
    (hw : writeFileP d parts data perm now = (none, d')) :
    ∃ f : file, d'.Open path = .ok (.fileHandle f) ∧ f.content = data ∧
      Handle.readAll (.fileHandle f) = .ok data := by
  have hget := writeFileP_getFile d parts data perm now hempty hw
  have hne : path ≠ "" := by
    intro hh
    subst hh
    rw [hsplit] at hempty
    exact hempty (by decide)
  refine ⟨⟨⟨lastSeg parts, data.length, now, false, perm⟩, data⟩, ?_, rfl, rfl⟩
  simp only [dir.Open, if_neg (not_or.mpr ⟨hne, hdot⟩), dir.getFileS, ← hsplit, hget]

/-- C3 witness: writing bytes (containing a null byte) to `hello.txt` in a
fresh filesystem and opening it again reads them back. -/
theorem C3_write_then_read_witness :
    ∃ f : file,
      ((writeFileP (FS.New 0).root ["hello.txt"] [104, 0, 108] 0o644 3).2).Open "hello.txt"
        = .ok (.fileHandle f) ∧ f.content = [104, 0, 108] ∧
      Handle.readAll (.fileHandle f) = .ok [104, 0, 108] :=
  C3_write_then_read (FS.New 0).root "hello.txt" ["hello.txt"] [104, 0, 108] 0o644 3
    (writeFileP (FS.New 0).root ["hello.txt"] [104, 0, 108] 0o644 3).2
    (by decide) (by decide) (by decide) rfl

/-- C4: whenever `ReadDir` succeeds on a path, that path resolves to a
directory, and the returned list is sorted ascending by name (codepoint
lexicographic) and is a permutation of the metadata of exactly the immediate
children of that directory — every file entry plus every child directory, and
nothing else. -/
theorem C4_readdir_sorted_complete (d : dir) (parts : List String) (l : List fileinfo)
    (h : readDirP d parts = .ok l) :
    ∃ t : dir, getDirP d parts = .ok t ∧
      l.Pairwise (fun a b => nameLe a.name b.name = true) ∧
      l.Perm (t.files.map (fun p => p.2.info) ++ t.dirs.map (fun p => p.2.info)) := by
  rw [readDirP_eq] at h
  cases hg : getDirP d parts with
  | error e =>
    rw [hg] at h
    simp [Except.map] at h
  | ok t =>
    rw [hg] at h
    simp only [Except.map, Except.ok.injEq] at h
    subst h
    exact ⟨t, rfl, sortByName_pairwise _, sortByName_perm _⟩

/-- C4 witness: listing the root of a filesystem holding directory `files` and
file `test.txt` returns exactly the two immediate children, sorted. -/
theorem C4_readdir_sorted_complete_witness :
    ∃ t : dir,
      getDirP (writeFileP (mkdirAllP (FS.New 0).root ["files"] 0o700 1).2
        ["test.txt"] [1] 0o644 2).2 [] = .ok t ∧
      List.Pairwise (fun a b => nameLe a.name b.name = true)
        [(⟨"files", 0x100, 1, true, 0o700⟩ : fileinfo), ⟨"test.txt", 1, 2, false, 0o644⟩] ∧
      List.Perm [(⟨"files", 0x100, 1, true, 0o700⟩ : fileinfo), ⟨"test.txt", 1, 2, false, 0o644⟩]
        (t.files.map (fun p => p.2.info) ++ t.dirs.map (fun p => p.2.info)) :=
  C4_readdir_sorted_complete
    (writeFileP (mkdirAllP (FS.New 0).root ["files"] 0o700 1).2 ["test.txt"] [1] 0o644 2).2 []
    [⟨"files", 0x100, 1, true, 0o700⟩, ⟨"test.txt", 1, 2, false, 0o644⟩] rfl

/-- C5: `MkdirAll` is idempotent — when it succeeds, running it again on the
result succeeds as well (for any permission and time) — and the only error it
can ever return is the already-exists error raised when a segment collides
with an existing file, so a segment that already exists as a directory never
causes an error. -/
theorem C5_mkdirall_idempotent (d : dir) (parts : List String) (perm now perm' now' : Nat) :
    (∀ d', mkdirAllP d parts perm now = (none, d') →
      (mkdirAllP d' parts perm' now').1 = none) ∧
    (∀ e d', mkdirAllP d parts perm now = (some e, d') → e = .exist) :=
  ⟨fun _ h => mkdirAllP_idem d parts perm now perm' now' h,
   fun _ _ h => mkdirAllP_error_exist d parts perm now h⟩

/-- C5 witness: `MkdirAll "a/b"` twice in a row on a fresh filesystem succeeds
both times. -/
theorem C5_mkdirall_idempotent_witness :
    (mkdirAllP (mkdirAllP (FS.New 0).root ["a", "b"] 0o700 1).2 ["a", "b"] 0o700 2).1
      = none :=
  (C5_mkdirall_idempotent (FS.New 0).root ["a", "b"] 0o700 1 0o700 2).1 _ rfl

/-- C6: two successive successful writes to the same (well-formed) path leave
exactly the second write's file: a subsequent `Open` yields a handle over a
record whose content is the second byte sequence and whose metadata (size,
time, permission) comes entirely from the second write — full replacement, no
append or merge. -/
theorem C6_second_write_wins (d : dir) (path : String) (parts : List String)
    (c1 c2 : List Nat) (perm now perm' now' : Nat) (d1 d2 : dir)
    (hsplit : parts = splitPath path) (hdot : path ≠ ".") (hempty : "" ∉ parts)
    (_h1 : writeFileP d parts c1 perm now = (none, d1))
    (h2 : writeFileP d1 parts c2 perm' now' = (none, d2)) :
    d2.Open path
      = .ok (.fileHandle ⟨⟨lastSeg parts, c2.length, now', false, perm'⟩, c2⟩) ∧
    Handle.readAll (.fileHandle (⟨⟨lastSeg parts, c2.length, now', false, perm'⟩, c2⟩ : file))
      = .ok c2 := by
  have hget := writeFileP_getFile d1 parts c2 perm' now' hempty h2
  have hne : path ≠ "" := by
    intro hh
    subst hh
    rw [hsplit] at hempty
    exact hempty (by decide)
  refine ⟨?_, rfl⟩
  simp only [dir.Open, if_neg (not_or.mpr ⟨hne, hdot⟩), dir.getFileS, ← hsplit, hget]

/-- C6 witness: writing `[1]` then `[2, 3]` to `f` and opening `f` reads
`[2, 3]` with the second write's metadata. -/
theorem C6_second_write_wins_witness :
    ((writeFileP (writeFileP (FS.New 0).root ["f"] [1] 0o600 1).2 ["f"] [2, 3] 0o644 2).2).Open "f"
      = .ok (.fileHandle ⟨⟨"f", 2, 2, false, 0o644⟩, [2, 3]⟩) ∧
    Handle.readAll (.fileHandle (⟨⟨"f", 2, 2, false, 0o644⟩, [2, 3]⟩ : file)) = .ok [2, 3] :=
  C6_second_write_wins (FS.New 0).root "f" ["f"] [1] [2, 3] 0o600 1 0o644 2
    (writeFileP (FS.New 0).root ["f"] [1] 0o600 1).2
    (writeFileP (writeFileP (FS.New 0).root ["f"] [1] 0o600 1).2 ["f"] [2, 3] 0o644 2).2
    (by decide) (by decide) (by decide) rfl rfl

/-- C7: a multi-segment `WriteFile` whose next segment does not name an
existing child directory at the current node fails with the not-exist
sentinel and returns the tree completely unchanged; more generally every
failing `WriteFile` returns the not-exist sentinel and the unchanged tree (no
intermediate directory created, no file entry inserted anywhere). -/
theorem C7_write_missing_dir (d : dir) (p : String) (rest : List String)
    (data : List Nat) (perm now : Nat) :
    (rest ≠ [] → mapFind d.dirs p = none →
      writeFileP d (p :: rest) data perm now = (some .notExist, d)) ∧
    (∀ e d', writeFileP d (p :: rest) data perm now = (some e, d') →
      e = .notExist ∧ d' = d) := by
  constructor
  · intro hrest hnone
    rcases rest with - | ⟨q, t⟩
    · exact absurd rfl hrest
    · simp only [writeFileP, hnone]
  · intro e d' h
    exact writeFileP_error d (p :: rest) data perm now h

/-- C7 witness: `WriteFile "missing_dir/x.txt"` on a fresh filesystem fails
with not-exist and leaves the root untouched. -/
theorem C7_write_missing_dir_witness :
    writeFileP (FS.New 0).root ["missing_dir", "x.txt"] [1] 0o644 5
      = (some .notExist, (FS.New 0).root) :=
  (C7_write_missing_dir (FS.New 0).root "missing_dir" ["x.txt"] [1] 0o644 5).1
    (by decide) rfl

/-- C8: `Open` and `Stat` try file resolution first and directory resolution
second, return the first success (file wins when both resolve), and when
neither resolves they return the wrapped "no such file or directory" error in
which the not-exist sentinel is still recognisable via `errors.Is`.  Every
error the two underlying lookups can produce is the bare not-exist sentinel,
so the "surface the first non-not-exist error" branches can never fire. -/
theorem C8_resolution_order (d : dir) (name : String) (hne : name ≠ "") (hdot : name ≠ ".") :
    (∀ f, d.getFileS name = .ok f →
      d.Open name = .ok (.fileHandle f) ∧ statNamed d name = .ok f.cursorStat) ∧
    (∀ e sub, d.getFileS name = .error e → d.getDirS name = .ok sub →
      d.Open name = .ok (.dirHandle sub) ∧ statNamed d name = .ok sub.Stat) ∧
    (∀ e e', d.getFileS name = .error e → d.getDirS name = .error e' →
      d.Open name = .error (.noSuchFileOrDirectory name) ∧
      statNamed d name = .error (.noSuchFileOrDirectory name) ∧
      errorsIsNotExist (.noSuchFileOrDirectory name) = true) ∧
    (∀ e, d.getFileS name = .error e → osIsNotExist e = true) ∧
    (∀ e, d.getDirS name = .error e → osIsNotExist e = true) := by
  refine ⟨?_, ?_, ?_, ?_, ?_⟩
  · intro f hf
    constructor
    · simp only [dir.Open, if_neg (not_or.mpr ⟨hne, hdot⟩), hf]
    · simp only [statNamed, hf]
  · intro e sub hf hg
    have he := getFileS_error hf
    subst he
    constructor
    · simp only [dir.Open, if_neg (not_or.mpr ⟨hne, hdot⟩), hf, hg]
      simp [osIsNotExist]
    · simp only [statNamed, hf, hg]
      simp [osIsNotExist]
  · intro e e' hf hg
    have he := getFileS_error hf
    subst he
    have he' := getDirS_error hg
    subst he'
    refine ⟨?_, ?_, rfl⟩
    · simp only [dir.Open, if_neg (not_or.mpr ⟨hne, hdot⟩), hf, hg]
      simp [osIsNotExist]
    · simp only [statNamed, hf, hg]
      simp [osIsNotExist]
  · intro e hf
    rw [getFileS_error hf]
    rfl
  · intro e hg
    rw [getDirS_error hg]
    rfl

/-- C8 witness: on a filesystem holding file `f`, `Open` and `Stat` of `"f"`
resolve it as a file. -/
theorem C8_resolution_order_witness :
    (writeFileP (FS.New 0).root ["f"] [9] 0o644 1).2.Open "f"
      = .ok (.fileHandle ⟨⟨"f", 1, 1, false, 0o644⟩, [9]⟩) ∧
    statNamed (writeFileP (FS.New 0).root ["f"] [9] 0o644 1).2 "f"
      = .ok ⟨"f", 1, 1, false, 0o644⟩ :=
  (C8_resolution_order (writeFileP (FS.New 0).root ["f"] [9] 0o644 1).2 "f"
      (by decide) (by decide)).1
    ⟨⟨"f", 1, 1, false, 0o644⟩, [9]⟩ rfl

/-- C9 counterexample: "for every path that resolves to a directory, a content
read on the handle returned by Open always fails" is false.  After
`MkdirAll "a"` and `WriteFile "a"` (which does not check for the directory),
the path `a` still resolves to a directory, yet `Open "a"` returns a file
handle — file resolution wins — and reading it succeeds, returning the
written bytes. -/
theorem C9_counterexample :
    getDirP (writeFileP (mkdirAllP (FS.New 0).root ["a"] 0o700 1).2 ["a"] [9] 0o644 2).2 ["a"]
      = .ok (.mk ⟨"a", 0x100, 1, true, 0o700⟩ [] []) ∧
    (writeFileP (mkdirAllP (FS.New 0).root ["a"] 0o700 1).2 ["a"] [9] 0o644 2).2.Open "a"
      = .ok (.fileHandle ⟨⟨"a", 1, 2, false, 0o644⟩, [9]⟩) ∧
    Handle.readAll (.fileHandle (⟨⟨"a", 1, 2, false, 0o644⟩, [9]⟩ : file)) = .ok [9] :=
  ⟨rfl, rfl, rfl⟩

/-- C9 (amended): for every path that resolves to a directory and does not
resolve to a file, `Open` succeeds with a directory handle; a content read on
that handle always fails with the generic read-not-supported error, which is
distinguishable from the not-exist condition (neither `os.IsNotExist` nor
`errors.Is(·, fs.ErrNotExist)` recognises it); and `Close` on the handle is a
no-op that succeeds. -/
theorem C9_directory_open_read (d : dir) (name : String) (sub : dir) (e : FsError)
    (hne : name ≠ "") (hdot : name ≠ ".")
    (hdir : d.getDirS name = .ok sub) (hfile : d.getFileS name = .error e) :
    d.Open name = .ok (.dirHandle sub) ∧
    Handle.readAll (.dirHandle sub) = .error .cannotReadDirectory ∧
    (∀ buf, sub.Read buf = (0, some .cannotReadDirectory)) ∧
    sub.Close = none ∧
    errorsIsNotExist .cannotReadDirectory = false ∧
    osIsNotExist .cannotReadDirectory = false := by
  have he := getFileS_error hfile
  subst he
  refine ⟨?_, rfl, fun buf => rfl, rfl, rfl, rfl⟩
  simp only [dir.Open, if_neg (not_or.mpr ⟨hne, hdot⟩), hfile, hdir]
  simp [osIsNotExist]

/-- C9 witness: opening the directory `a` of a fresh filesystem returns a
directory handle whose reads fail with the read-not-supported error and whose
close is a successful no-op. -/
theorem C9_directory_open_read_witness :
    (mkdirAllP (FS.New 0).root ["a"] 0o700 1).2.Open "a"
      = .ok (.dirHandle (.mk ⟨"a", 0x100, 1, true, 0o700⟩ [] [])) ∧
    Handle.readAll (.dirHandle (.mk ⟨"a", 0x100, 1, true, 0o700⟩ [] []))
      = .error .cannotReadDirectory ∧
    (∀ buf, (dir.mk ⟨"a", 0x100, 1, true, 0o700⟩ [] []).Read buf
      = (0, some .cannotReadDirectory)) ∧
    (dir.mk ⟨"a", 0x100, 1, true, 0o700⟩ [] []).Close = none ∧
    errorsIsNotExist .cannotReadDirectory = false ∧
    osIsNotExist .cannotReadDirectory = false :=
  C9_directory_open_read (mkdirAllP (FS.New 0).root ["a"] 0o700 1).2 "a"
    (.mk ⟨"a", 0x100, 1, true, 0o700⟩ [] []) .notExist
    (by decide) (by decide) rfl rfl

/-- C10: whenever `MkdirAll` succeeds, every directory node it traversed —
the node at every proper prefix of the path, starting with the node the call
was made on — has its modified timestamp set to the current time, whether or
not anything was created along the way. -/
theorem C10_mkdirall_touches (d : dir) (parts : List String) (perm now : Nat) (d' : dir)
    (h : mkdirAllP d parts perm now = (none, d')) :
    ∀ k, k < parts.length →
      ∃ n, resolveDirs d' (List.take k parts) = some n ∧ n.info.modified = now :=
  mkdirAllP_touch d parts perm now h

/-- C10 witness: repeating `MkdirAll "a/b"` at a later time on a filesystem
where both directories already exist still stamps the traversed node `a`
(and the root) with the new time. -/
theorem C10_mkdirall_touches_witness :
    ∃ n, resolveDirs
        (mkdirAllP (mkdirAllP (FS.New 0).root ["a", "b"] 0o700 1).2 ["a", "b"] 0o700 7).2
        (List.take 1 ["a", "b"]) = some n ∧ n.info.modified = 7 :=
  C10_mkdirall_touches (mkdirAllP (FS.New 0).root ["a", "b"] 0o700 1).2 ["a", "b"] 0o700 7
    (mkdirAllP (mkdirAllP (FS.New 0).root ["a", "b"] 0o700 1).2 ["a", "b"] 0o700 7).2
    rfl 1 (by decide)

end Memoryfs
